import Mathlib

/-!
Shallow embedding of `src/main.py` (`PersistentPriorityQueue`).

The backing file is modelled as `Option String`: `none` means the file does
not exist (opening it for reading raises `FileNotFoundError`), `some s` means
the file exists with contents `s`.  Every operation of the class re-reads the
whole file, transforms the decoded entry list, and rewrites the file, so each
operation is a pure function from the old contents to (result, new contents).

Python-level primitives (`str.strip`, `str.split(' ', 1)`, `int(...)`,
`min(..., key=...)`, `list.remove`, stable `list.sort(key=...)`, file line
iteration, decimal formatting of `int` in an f-string) are modelled
character-by-character below; each definition notes the Python construct it
embeds.  `int(...)` is modelled on its ordinary inputs: an optional sign
followed by decimal digits.
-/

namespace HeapqBasic

/-- An entry of the queue: `(priority, item)` as parsed by the Python code. -/
abbrev Entry := Int × String

/-- Characters stripped by Python `str.strip()` (ASCII whitespace). -/
def isPyWs (c : Char) : Bool :=
  c == ' ' || c == '\t' || c == '\n' || c == '\r' ||
  c == Char.ofNat 11 || c == Char.ofNat 12

/-- Python `str.strip()`: drop leading and trailing whitespace. -/
def pyStripChars (l : List Char) : List Char :=
  ((l.dropWhile isPyWs).reverse.dropWhile isPyWs).reverse

/-- Python `s.split(' ', 1)` when it yields two parts: split at the first
space character; `none` when the string contains no space (so that unpacking
`priority, item = ...` fails). -/
def splitFirstSpaceChars : List Char → Option (List Char × List Char)
  | [] => none
  | c :: rest =>
    if c = ' ' then some ([], rest)
    else (splitFirstSpaceChars rest).map (fun p => (c :: p.1, p.2))

/-- Is `c` a decimal digit. -/
def isDigitChar (c : Char) : Bool :=
  48 ≤ c.toNat && c.toNat ≤ 57

/-- Value of a non-empty all-digit character list, else `none`. -/
def digitsVal (l : List Char) : Option Nat :=
  if l.isEmpty then none
  else if l.all isDigitChar then
    some (l.foldl (fun a c => a * 10 + (c.toNat - 48)) 0)
  else none

/-- Python `int(tok)` on its ordinary inputs: optional sign, then decimal
digits. -/
def pyIntChars (l : List Char) : Option Int :=
  match l with
  | [] => none
  | c :: rest =>
    if c = '-' then (digitsVal rest).map (fun n => -(n : Int))
    else if c = '+' then (digitsVal rest).map (fun n => (n : Int))
    else (digitsVal l).map (fun n => (n : Int))

/-- `priority, item = line.strip().split(' ', 1)` followed by
`int(priority)`: decode one stored line into an entry. -/
def decodeLineChars (l : List Char) : Option Entry :=
  match splitFirstSpaceChars (pyStripChars l) with
  | none => none
  | some (tok, rest) =>
    match pyIntChars tok with
    | none => none
    | some p => some (p, String.mk rest)

/-- Python file line iteration: split the contents at newline characters;
a final newline does not produce an extra empty line. -/
def linesOf : List Char → List (List Char)
  | [] => []
  | c :: rest =>
    if c = '\n' then [] :: linesOf rest
    else
      match linesOf rest with
      | [] => [[c]]
      | l :: ls => (c :: l) :: ls

/-- Decode every line; the first failing line aborts the whole read
(the Python loop raises there). -/
def decodeLines : List (List Char) → Option (List Entry)
  | [] => some []
  | l :: ls =>
    match decodeLineChars l with
    | none => none
    | some e => (decodeLines ls).map (fun es => e :: es)

/-- Decode full file contents into the entry list. -/
def decodeAllChars (cs : List Char) : Option (List Entry) :=
  decodeLines (linesOf cs)

/-- Decode full file contents into the entry list (string form). -/
def decodeAll (s : String) : Option (List Entry) :=
  decodeAllChars s.data

/-- Character of digit `d` (`0 ≤ d ≤ 9`). -/
def digitChar (d : Nat) : Char := Char.ofNat (48 + d)

/-- Decimal digits of a natural number, fuelled so that it reduces
definitionally; any fuel above `n` gives the digits of `n`. -/
def natToCharsAux : Nat → Nat → List Char
  | 0, _ => []
  | fuel + 1, n =>
    if n < 10 then [digitChar n]
    else natToCharsAux fuel (n / 10) ++ [digitChar (n % 10)]

/-- Decimal digits of a natural number, as produced by Python `str(n)`. -/
def natToChars (n : Nat) : List Char :=
  natToCharsAux (n + 1) n

/-- Decimal representation of an integer, as produced by Python `str(p)`
inside the f-string `f"{priority} {item}"`. -/
def intToChars (p : Int) : List Char :=
  if p < 0 then '-' :: natToChars p.natAbs else natToChars p.toNat

/-- The characters written for one entry before the newline:
`f"{priority} {item}"`. -/
def encodeLineChars (e : Entry) : List Char :=
  intToChars e.1 ++ ' ' :: e.2.data

/-- The characters written for a whole entry list: each entry as
`f"{priority} {item}\n"`. -/
def encodeAllChars (l : List Entry) : List Char :=
  (l.map (fun e => encodeLineChars e ++ ['\n'])).flatten

/-- The file contents written for a whole entry list. -/
def encodeAll (l : List Entry) : String :=
  String.mk (encodeAllChars l)

/-- Errors raised by the Python methods. -/
inductive QErr where
  /-- `FileNotFoundError` from `open(path, 'r')` on a missing file. -/
  | fileNotFound
  /-- `ValueError` while parsing a stored line (unpacking or `int`). -/
  | decodeFailure
  /-- `IndexError("Queue is empty")`. -/
  | emptyQueue
  /-- `ValueError("Item ... not found in the queue.")`. -/
  | itemNotFound
deriving DecidableEq, Repr

instance {ε α : Type} [DecidableEq ε] [DecidableEq α] :
    DecidableEq (Except ε α) := fun x y =>
  match x, y with
  | .error a, .error b =>
    if h : a = b then isTrue (by rw [h])
    else isFalse (fun hc => h (by cases hc; rfl))
  | .error _, .ok _ => isFalse (fun hc => by cases hc)
  | .ok _, .error _ => isFalse (fun hc => by cases hc)
  | .ok a, .ok b =>
    if h : a = b then isTrue (by rw [h])
    else isFalse (fun hc => h (by cases hc; rfl))

/-- The read loop shared by every method: open the file for reading and
decode all lines. -/
def readItems : Option String → Except QErr (List Entry)
  | none => .error .fileNotFound
  | some s =>
    match decodeAll s with
    | none => .error .decodeFailure
    | some items => .ok items

/-- One step of Python `min(items, key=lambda x: x[0])`: keep the current
best unless the new element's key is strictly smaller. -/
def pyStep (best y : Entry) : Entry :=
  if y.1 < best.1 then y else best

/-- Python `min(items, key=lambda x: x[0])` (`none` on the empty list):
the first entry attaining the minimal priority. -/
def pyMin : List Entry → Option Entry
  | [] => none
  | x :: xs => some (xs.foldl pyStep x)

/-- Structural characterization of `pyMin`: the first entry attaining the
minimal priority. -/
def firstMin : List Entry → Option Entry
  | [] => none
  | x :: xs =>
    match firstMin xs with
    | none => some x
    | some m => some (if m.1 < x.1 then m else x)

/-- Python `list.remove`: delete the first element equal to `a`. -/
def pyRemove : List Entry → Entry → List Entry
  | [], _ => []
  | x :: xs, a => if x = a then xs else x :: pyRemove xs a

/-- Insert an entry into a list sorted by priority, before the first entry of
priority `≥ e.1`. -/
def insEntry (e : Entry) : List Entry → List Entry
  | [] => [e]
  | x :: xs => if x.1 < e.1 then x :: insEntry e xs else e :: x :: xs

/-- Python `items.sort(key=lambda x: x[0])`: a stable sort by ascending
priority, modelled as stable insertion sort. -/
def pySort (l : List Entry) : List Entry :=
  l.foldr insEntry []

/-- `push(item, priority)`: append `f"{priority} {item}\n"` to the file
(creating it when absent); the raw item is written, with no validation. -/
def push (item : String) (priority : Int) (store : Option String) :
    Option String :=
  some (String.mk ((store.getD "").data ++
    (encodeLineChars (priority, item) ++ ['\n'])))

/-- `pop()`: read and decode all entries, fail when the file is missing,
malformed, or empty; otherwise remove the first minimal-priority entry,
rewrite the file with the remainder, and return the removed item text.
Returns (result, new file contents); on error the file is untouched. -/
def pop (store : Option String) : Except QErr String × Option String :=
  match readItems store with
  | .error e => (.error e, store)
  | .ok items =>
    match pyMin items with
    | none => (.error .emptyQueue, store)
    | some m => (.ok m.2, some (encodeAll (pyRemove items m)))

/-- `peek()`: like `pop` but without the rewrite. -/
def peek (store : Option String) : Except QErr String :=
  match readItems store with
  | .error e => .error e
  | .ok items =>
    match pyMin items with
    | none => .error .emptyQueue
    | some m => .ok m.2

/-- `change_priority(target_item, new_priority)`: set the priority of every
entry whose item equals `target` (positions preserved); raise when no entry
matches, before any write. -/
def change_priority (target : String) (newp : Int) (store : Option String) :
    Except QErr Unit × Option String :=
  match readItems store with
  | .error e => (.error e, store)
  | .ok items =>
    let updated := items.map (fun e => if e.2 = target then (newp, e.2) else e)
    if items.any (fun e => e.2 = target) then (.ok (), some (encodeAll updated))
    else (.error .itemNotFound, store)

/-- The renumbering loop of `reorder_priorities`: consecutive priorities
starting at `n`. -/
def renumber : Int → List Entry → List Entry
  | _, [] => []
  | n, e :: es => (n, e.2) :: renumber (n + 1) es

/-- `reorder_priorities()`: stable-sort by priority, renumber from 1,
rewrite. -/
def reorder_priorities (store : Option String) :
    Except QErr Unit × Option String :=
  match readItems store with
  | .error e => (.error e, store)
  | .ok items => (.ok (), some (encodeAll (renumber 1 (pySort items))))

/-- `insert_and_shift_up(item, target_priority)`: increment every priority
`≥ target`, append the new entry, stable-sort, rewrite. -/
def insert_and_shift_up (item : String) (target : Int)
    (store : Option String) : Except QErr Unit × Option String :=
  match readItems store with
  | .error e => (.error e, store)
  | .ok items =>
    let shifted := items.map (fun e =>
      (if e.1 ≥ target then e.1 + 1 else e.1, e.2))
    (.ok (), some (encodeAll (pySort (shifted ++ [(target, item)]))))

/-- A sequence of `push` calls, first call first. -/
def pushAll (l : List Entry) (store : Option String) : Option String :=
  l.foldl (fun st e => push e.2 e.1 st) store

/-- Repeated `pop` calls (at most `fuel` of them), collecting the returned
item texts until a call fails. -/
def popsStore : Nat → Option String → List String
  | 0, _ => []
  | n + 1, s =>
    match pop s with
    | (.ok item, s2) => item :: popsStore n s2
    | (.error _, _) => []

/-- An item string that survives the codec unchanged: non-empty, free of
newlines, and not ending in whitespace. -/
def goodItem (i : String) : Bool :=
  !i.data.isEmpty && i.data.all (fun c => !(c == '\n')) &&
  !isPyWs (i.data.getLastD ' ')

/-! ### Decimal codec lemmas -/

theorem digitChar_toNat {d : Nat} (h : d < 10) : (digitChar d).toNat = 48 + d := by
  interval_cases d <;> decide

theorem isDigitChar_digitChar {d : Nat} (h : d < 10) :
    isDigitChar (digitChar d) = true := by
  interval_cases d <;> decide

theorem natToCharsAux_irrel :
    ∀ (f1 : Nat), ∀ {f2 n : Nat}, n < f1 → n < f2 →
      natToCharsAux f1 n = natToCharsAux f2 n := by
  intro f1
  induction f1 with
  | zero => intro f2 n h1 _; omega
  | succ fuel ih =>
    intro f2 n h1 h2
    cases f2 with
    | zero => omega
    | succ g =>
      show (if n < 10 then [digitChar n]
        else natToCharsAux fuel (n / 10) ++ [digitChar (n % 10)]) =
        (if n < 10 then [digitChar n]
        else natToCharsAux g (n / 10) ++ [digitChar (n % 10)])
      by_cases h : n < 10
      · rw [if_pos h, if_pos h]
      · rw [if_neg h, if_neg h,
          ih (show n / 10 < fuel by omega) (show n / 10 < g by omega)]

theorem natToChars_eq (n : Nat) :
    natToChars n = if n < 10 then [digitChar n]
      else natToChars (n / 10) ++ [digitChar (n % 10)] := by
  show (if n < 10 then [digitChar n]
    else natToCharsAux n (n / 10) ++ [digitChar (n % 10)]) = _
  by_cases h : n < 10
  · rw [if_pos h, if_pos h]
  · rw [if_neg h, if_neg h,
      natToCharsAux_irrel n (show n / 10 < n by omega)
        (show n / 10 < n / 10 + 1 by omega)]
    rfl

theorem natToChars_ne_nil (n : Nat) : natToChars n ≠ [] := by
  rw [natToChars_eq]
  split
  · simp
  · simp

theorem natToChars_all_digits (n : Nat) :
    ∀ c ∈ natToChars n, isDigitChar c = true := by
  induction n using Nat.strong_induction_on with
  | _ n ih =>
    rw [natToChars_eq]
    split
    · next h =>
      intro c hc
      simp only [List.mem_singleton] at hc
      subst hc
      exact isDigitChar_digitChar h
    · next h =>
      intro c hc
      rcases List.mem_append.1 hc with h1 | h2
      · exact ih (n / 10) (Nat.div_lt_self (by omega) (by omega)) c h1
      · simp only [List.mem_singleton] at h2
        subst h2
        exact isDigitChar_digitChar (Nat.mod_lt _ (by omega))

theorem digitsVal_of_digits {l : List Char} (hne : l ≠ [])
    (hd : ∀ c ∈ l, isDigitChar c = true) :
    digitsVal l = some (l.foldl (fun a c => a * 10 + (c.toNat - 48)) 0) := by
  unfold digitsVal
  rw [if_neg (by simpa using hne), if_pos (by simpa [List.all_eq_true] using hd)]

theorem natToChars_foldl (n : Nat) :
    (natToChars n).foldl (fun a c => a * 10 + (c.toNat - 48)) 0 = n := by
  induction n using Nat.strong_induction_on with
  | _ n ih =>
    rw [natToChars_eq]
    split
    · next h =>
      simp only [List.foldl_cons, List.foldl_nil]
      rw [digitChar_toNat h]
      omega
    · next h =>
      rw [List.foldl_append]
      simp only [List.foldl_cons, List.foldl_nil]
      rw [ih (n / 10) (Nat.div_lt_self (by omega) (by omega))]
      rw [digitChar_toNat (Nat.mod_lt _ (by omega))]
      omega

theorem digitsVal_natToChars (n : Nat) : digitsVal (natToChars n) = some n := by
  rw [digitsVal_of_digits (natToChars_ne_nil n) (natToChars_all_digits n),
    natToChars_foldl]

theorem isDigitChar_not_ws {c : Char} (h : isDigitChar c = true) :
    isPyWs c = false := by
  simp only [isDigitChar, Bool.and_eq_true, decide_eq_true_eq] at h
  simp only [isPyWs, Bool.or_eq_false_iff, beq_eq_false_iff_ne, ne_eq]
  refine ⟨⟨⟨⟨⟨?_, ?_⟩, ?_⟩, ?_⟩, ?_⟩, ?_⟩ <;>
    (intro he; subst he; revert h; decide)

theorem isDigitChar_ne_minus {c : Char} (h : isDigitChar c = true) : c ≠ '-' := by
  intro he; subst he; revert h; decide

theorem isDigitChar_ne_plus {c : Char} (h : isDigitChar c = true) : c ≠ '+' := by
  intro he; subst he; revert h; decide

theorem isDigitChar_ne_space {c : Char} (h : isDigitChar c = true) : c ≠ ' ' := by
  intro he; subst he; revert h; decide

theorem isDigitChar_ne_newline {c : Char} (h : isDigitChar c = true) :
    c ≠ '\n' := by
  intro he; subst he; revert h; decide

theorem pyIntChars_natToChars (n : Nat) :
    pyIntChars (natToChars n) = some (n : Int) := by
  obtain ⟨c, rest, hc⟩ : ∃ c rest, natToChars n = c :: rest := by
    cases h : natToChars n with
    | nil => exact absurd h (natToChars_ne_nil n)
    | cons c rest => exact ⟨c, rest, rfl⟩
  have hdig : isDigitChar c = true := by
    apply natToChars_all_digits n
    rw [hc]; exact List.mem_cons_self _ _
  rw [hc]
  simp only [pyIntChars]
  rw [if_neg (isDigitChar_ne_minus hdig), if_neg (isDigitChar_ne_plus hdig)]
  rw [← hc, digitsVal_natToChars]
  rfl

theorem pyIntChars_intToChars (p : Int) :
    pyIntChars (intToChars p) = some p := by
  unfold intToChars
  split
  · next h =>
    have e1 : pyIntChars ('-' :: natToChars p.natAbs)
        = (digitsVal (natToChars p.natAbs)).map (fun n => -(n : Int)) := rfl
    show pyIntChars ('-' :: natToChars p.natAbs) = some p
    rw [e1, digitsVal_natToChars]
    show (some (-(p.natAbs : Int)) : Option Int) = some p
    congr 1
    omega
  · next h =>
    rw [pyIntChars_natToChars]
    congr 1
    omega

/-! ### Strip, split and line lemmas -/

theorem dropWhile_eq_self_of_head {p : Char → Bool} {l : List Char}
    (h : ∀ c, l.head? = some c → p c = false) : l.dropWhile p = l := by
  cases l with
  | nil => rfl
  | cons c cs =>
    rw [List.dropWhile_cons, if_neg]
    rw [h c rfl]
    simp

theorem head_false_of_dropWhile {p : Char → Bool} :
    ∀ (l : List Char) (c : Char), (l.dropWhile p).head? = some c → p c = false := by
  intro l
  induction l with
  | nil => intro c hc; cases hc
  | cons x xs ih =>
    intro c hc
    rw [List.dropWhile_cons] at hc
    by_cases hx : p x = true
    · rw [if_pos hx] at hc
      exact ih c hc
    · rw [if_neg hx] at hc
      cases hc
      simpa using hx

theorem pyStripChars_eq_self {l : List Char}
    (h1 : ∀ c, l.head? = some c → isPyWs c = false)
    (h2 : ∀ c, l.getLast? = some c → isPyWs c = false) :
    pyStripChars l = l := by
  unfold pyStripChars
  rw [dropWhile_eq_self_of_head h1]
  rw [dropWhile_eq_self_of_head (fun c hc => h2 c (by rwa [List.head?_reverse] at hc))]
  exact List.reverse_reverse l

theorem pyStripChars_getLast {l : List Char} {c : Char}
    (h : (pyStripChars l).getLast? = some c) : isPyWs c = false := by
  unfold pyStripChars at h
  rw [List.getLast?_reverse] at h
  exact head_false_of_dropWhile _ _ h

theorem mem_of_mem_pyStripChars {l : List Char} {c : Char}
    (h : c ∈ pyStripChars l) : c ∈ l := by
  unfold pyStripChars at h
  rw [List.mem_reverse] at h
  have h2 := (List.dropWhile_sublist _).subset h
  rw [List.mem_reverse] at h2
  exact (List.dropWhile_sublist _).subset h2

theorem splitFirstSpaceChars_append {a : List Char} (b : List Char)
    (h : ' ' ∉ a) : splitFirstSpaceChars (a ++ ' ' :: b) = some (a, b) := by
  induction a with
  | nil => simp [splitFirstSpaceChars]
  | cons c cs ih =>
    have hc : c ≠ ' ' := by
      intro e; exact h (by rw [e]; exact List.mem_cons_self _ _)
    simp only [List.cons_append, splitFirstSpaceChars, List.append_eq]
    rw [if_neg hc, ih (fun hm => h (List.mem_cons_of_mem _ hm))]
    rfl

theorem splitFirstSpaceChars_eq :
    ∀ {l a b : List Char}, splitFirstSpaceChars l = some (a, b) →
      l = a ++ ' ' :: b := by
  intro l
  induction l with
  | nil => intro a b h; cases h
  | cons c cs ih =>
    intro a b h
    simp only [splitFirstSpaceChars] at h
    by_cases hc : c = ' '
    · rw [if_pos hc] at h
      cases h
      simpa using hc
    · rw [if_neg hc] at h
      cases hsp : splitFirstSpaceChars cs with
      | none => rw [hsp] at h; cases h
      | some pr =>
        rw [hsp] at h
        cases h
        rw [List.cons_append]
        rw [← ih hsp]

theorem linesOf_append {a : List Char} (rest : List Char) (h : '\n' ∉ a) :
    linesOf (a ++ '\n' :: rest) = a :: linesOf rest := by
  induction a with
  | nil =>
    simp [linesOf]
  | cons c cs ih =>
    have hc : c ≠ '\n' := by
      intro e; exact h (by rw [e]; exact List.mem_cons_self _ _)
    simp only [List.cons_append, linesOf, List.append_eq]
    rw [if_neg hc, ih (fun hm => h (List.mem_cons_of_mem _ hm))]

theorem mem_linesOf_no_newline :
    ∀ {cs : List Char} {l : List Char}, l ∈ linesOf cs → '\n' ∉ l := by
  intro cs
  induction cs with
  | nil => intro l hl; simp [linesOf] at hl
  | cons c rest ih =>
    intro l hl
    simp only [linesOf] at hl
    by_cases hc : c = '\n'
    · rw [if_pos hc] at hl
      rcases List.mem_cons.1 hl with h1 | h2
      · subst h1; simp
      · exact ih h2
    · rw [if_neg hc] at hl
      cases hrec : linesOf rest with
      | nil =>
        rw [hrec] at hl
        rcases List.mem_cons.1 hl with h1 | h2
        · subst h1
          intro hm
          rcases List.mem_singleton.1 hm with h3
          exact hc h3.symm
        · simp at h2
      | cons l0 ls =>
        rw [hrec] at hl
        rcases List.mem_cons.1 hl with h1 | h2
        · subst h1
          intro hm
          rcases List.mem_cons.1 hm with h3 | h4
          · exact hc h3.symm
          · exact ih (hrec ▸ List.mem_cons_self l0 ls) h4
        · exact ih (hrec ▸ List.mem_cons_of_mem l0 h2)

/-! ### Encode/decode round trip -/

theorem intToChars_all {p : Int} :
    ∀ c ∈ intToChars p, isDigitChar c = true ∨ c = '-' := by
  unfold intToChars
  split
  · intro c hc
    rcases List.mem_cons.1 hc with h1 | h2
    · right; exact h1
    · left; exact natToChars_all_digits _ c h2
  · intro c hc
    left; exact natToChars_all_digits _ c hc

theorem intToChars_no_space (p : Int) : ' ' ∉ intToChars p := by
  intro hm
  rcases intToChars_all _ hm with h | h
  · exact isDigitChar_ne_space h rfl
  · cases h

theorem intToChars_no_newline (p : Int) : '\n' ∉ intToChars p := by
  intro hm
  rcases intToChars_all _ hm with h | h
  · exact isDigitChar_ne_newline h rfl
  · cases h

theorem intToChars_head_not_ws {p : Int} {c : Char}
    (h : (intToChars p).head? = some c) : isPyWs c = false := by
  unfold intToChars at h
  split at h
  · cases h; decide
  · cases hn : natToChars p.toNat with
    | nil => exact absurd hn (natToChars_ne_nil _)
    | cons d ds =>
      rw [hn] at h
      have hd := natToChars_all_digits p.toNat d (by rw [hn]; exact List.mem_cons_self _ _)
      have he : d = c := by simpa using h
      subst he
      exact isDigitChar_not_ws hd

theorem good_getLast_not_ws {i : String} (h : goodItem i = true) :
    ∀ c, i.data.getLast? = some c → isPyWs c = false := by
  intro c hc
  have h3 : isPyWs (i.data.getLastD ' ') = false := by
    simp only [goodItem, Bool.and_eq_true, Bool.not_eq_eq_eq_not, Bool.not_true] at h
    exact h.2
  rw [List.getLastD_eq_getLast?, hc] at h3
  exact h3

theorem good_ne_nil {i : String} (h : goodItem i = true) : i.data ≠ [] := by
  intro he
  rw [goodItem, he] at h
  simp at h

theorem good_no_newline {i : String} (h : goodItem i = true) : '\n' ∉ i.data := by
  simp only [goodItem, Bool.and_eq_true, List.all_eq_true] at h
  intro hm
  have := h.1.2 _ hm
  simp at this

theorem encodeLineChars_no_newline {e : Entry} (h : goodItem e.2 = true) :
    '\n' ∉ encodeLineChars e := by
  unfold encodeLineChars
  intro hm
  rcases List.mem_append.1 hm with h1 | h2
  · exact intToChars_no_newline _ h1
  · rcases List.mem_cons.1 h2 with h3 | h4
    · cases h3
    · exact good_no_newline h h4

theorem encodeLineChars_getLast {e : Entry} (h : goodItem e.2 = true) :
    (encodeLineChars e).getLast? = e.2.data.getLast? := by
  unfold encodeLineChars
  have : intToChars e.1 ++ ' ' :: e.2.data = (intToChars e.1 ++ [' ']) ++ e.2.data := by
    simp
  rw [this, List.getLast?_append_of_ne_nil _ (good_ne_nil h)]

theorem pyStripChars_encodeLineChars {e : Entry} (h : goodItem e.2 = true) :
    pyStripChars (encodeLineChars e) = encodeLineChars e := by
  apply pyStripChars_eq_self
  · intro c hc
    unfold encodeLineChars at hc
    cases hn : intToChars e.1 with
    | nil => exact absurd hn (by unfold intToChars; split <;> simp [natToChars_ne_nil])
    | cons d ds =>
      rw [hn] at hc
      simp only [List.cons_append, List.head?_cons, Option.some.injEq] at hc
      subst hc
      exact intToChars_head_not_ws (by rw [hn]; rfl)
  · intro c hc
    rw [encodeLineChars_getLast h] at hc
    exact good_getLast_not_ws h c hc

theorem decodeLineChars_encodeLineChars {p : Int} {i : String}
    (h : goodItem i = true) :
    decodeLineChars (encodeLineChars (p, i)) = some (p, i) := by
  unfold decodeLineChars
  rw [pyStripChars_encodeLineChars h]
  show (match splitFirstSpaceChars (intToChars p ++ ' ' :: i.data) with
    | none => none
    | some (tok, rest) =>
      match pyIntChars tok with
      | none => none
      | some q => some (q, String.mk rest)) = some (p, i)
  rw [splitFirstSpaceChars_append _ (intToChars_no_space p)]
  show (match pyIntChars (intToChars p) with
    | none => none
    | some q => some (q, String.mk i.data)) = some (p, i)
  rw [pyIntChars_intToChars]

theorem linesOf_encodeAllChars {l : List Entry}
    (h : ∀ e ∈ l, goodItem e.2 = true) :
    linesOf (encodeAllChars l) = l.map encodeLineChars := by
  induction l with
  | nil => rfl
  | cons e es ih =>
    have h1 : encodeAllChars (e :: es)
        = (encodeLineChars e ++ ['\n']) ++ encodeAllChars es := rfl
    have h2 : (encodeLineChars e ++ ['\n']) ++ encodeAllChars es
        = encodeLineChars e ++ '\n' :: encodeAllChars es := by simp
    rw [h1, h2,
      linesOf_append _ (encodeLineChars_no_newline (h e (List.mem_cons_self _ _)))]
    rw [ih (fun x hx => h x (List.mem_cons_of_mem _ hx))]
    rfl

theorem decodeAll_encodeAll {l : List Entry}
    (h : ∀ e ∈ l, goodItem e.2 = true) :
    decodeAll (encodeAll l) = some l := by
  show decodeAllChars (encodeAllChars l) = some l
  unfold decodeAllChars
  rw [linesOf_encodeAllChars h]
  induction l with
  | nil => rfl
  | cons e es ih =>
    simp only [List.map_cons, decodeLines]
    rw [decodeLineChars_encodeLineChars (h e (List.mem_cons_self _ _))]
    rw [ih (fun x hx => h x (List.mem_cons_of_mem _ hx))]
    rfl

/-! ### Every decoded entry has a well-behaved item -/

theorem decodeLineChars_good {l : List Char} {p : Int} {i : String}
    (hnl : '\n' ∉ l) (h : decodeLineChars l = some (p, i)) :
    goodItem i = true := by
  unfold decodeLineChars at h
  cases hsp : splitFirstSpaceChars (pyStripChars l) with
  | none => rw [hsp] at h; cases h
  | some tr =>
    obtain ⟨tok, rest⟩ := tr
    rw [hsp] at h
    have h2 : (match pyIntChars tok with
      | none => none
      | some q => some (q, String.mk rest)) = some (p, i) := h
    cases hint : pyIntChars tok with
    | none => rw [hint] at h2; cases h2
    | some q =>
      rw [hint] at h2
      cases h2
      have heq := splitFirstSpaceChars_eq hsp
      have hrest_ne : rest ≠ [] := by
        intro hr
        subst hr
        have : (pyStripChars l).getLast? = some ' ' := by
          rw [heq]
          exact List.getLast?_concat _
        have := pyStripChars_getLast this
        simp [isPyWs] at this
      have hlast : (pyStripChars l).getLast? = rest.getLast? := by
        rw [heq]
        have : tok ++ ' ' :: rest = (tok ++ [' ']) ++ rest := by simp
        rw [this, List.getLast?_append_of_ne_nil _ hrest_ne]
      have hrest_last : isPyWs (rest.getLastD ' ') = false := by
        rw [List.getLastD_eq_getLast?]
        rw [List.getLast?_eq_getLast rest hrest_ne] at hlast ⊢
        exact pyStripChars_getLast hlast
      have hrest_nl : ∀ c ∈ rest, ¬(c = '\n') := by
        intro c hc he
        subst he
        apply hnl
        apply mem_of_mem_pyStripChars
        rw [heq]
        exact List.mem_append.2 (Or.inr (List.mem_cons_of_mem _ hc))
      show goodItem (String.mk rest) = true
      simp only [goodItem, Bool.and_eq_true, Bool.not_eq_eq_eq_not, Bool.not_true,
        List.isEmpty_eq_false, List.all_eq_true]
      refine ⟨⟨hrest_ne, ?_⟩, hrest_last⟩
      intro c hc
      simpa using hrest_nl c hc

theorem decodeAll_good {s : String} {items : List Entry}
    (h : decodeAll s = some items) : ∀ e ∈ items, goodItem e.2 = true := by
  have key : ∀ (ls : List (List Char)) (its : List Entry),
      (∀ l ∈ ls, '\n' ∉ l) → decodeLines ls = some its →
      ∀ e ∈ its, goodItem e.2 = true := by
    intro ls
    induction ls with
    | nil =>
      intro its _ hd e he
      cases hd
      cases he
    | cons l rest ih =>
      intro its hnl hd e he
      simp only [decodeLines] at hd
      cases hline : decodeLineChars l with
      | none => rw [hline] at hd; cases hd
      | some e0 =>
        rw [hline] at hd
        have hd2 : (decodeLines rest).map (fun es => e0 :: es) = some its := hd
        cases hrest : decodeLines rest with
        | none => rw [hrest] at hd2; cases hd2
        | some es =>
          rw [hrest] at hd2
          simp only [Option.map_some', Option.some.injEq] at hd2
          subst hd2
          rcases List.mem_cons.1 he with h1 | h2
          · obtain ⟨p0, i0⟩ := e0
            rw [h1]
            exact decodeLineChars_good (hnl l (List.mem_cons_self _ _)) hline
          · exact ih es (fun x hx => hnl x (List.mem_cons_of_mem _ hx)) hrest e h2
  exact key (linesOf s.data) items (fun l hl => mem_linesOf_no_newline hl) h

/-! ### Minimum selection and stable sort lemmas -/

theorem foldl_pyStep (l : List Entry) : ∀ b : Entry,
    l.foldl pyStep b = (match firstMin l with
      | none => b
      | some m => if m.1 < b.1 then m else b) := by
  induction l with
  | nil => intro b; rfl
  | cons x xs ih =>
    intro b
    show List.foldl pyStep (pyStep b x) xs = _
    rw [ih (pyStep b x)]
    cases hm : firstMin xs with
    | none =>
      simp only [firstMin, hm]
      rfl
    | some m =>
      simp only [firstMin, hm]
      unfold pyStep
      split_ifs <;> first | rfl | omega

theorem pyMin_eq_firstMin (l : List Entry) : pyMin l = firstMin l := by
  cases l with
  | nil => rfl
  | cons x xs =>
    show some (xs.foldl pyStep x) = _
    rw [foldl_pyStep]
    cases hm : firstMin xs with
    | none => simp [firstMin, hm]
    | some m => simp [firstMin, hm]

theorem firstMin_eq_none : ∀ {l : List Entry}, firstMin l = none → l = [] := by
  intro l h
  cases l with
  | nil => rfl
  | cons x xs =>
    simp only [firstMin] at h
    cases hm : firstMin xs <;> rw [hm] at h <;> exact Option.noConfusion h

theorem firstMin_of_ne_nil {l : List Entry} (h : l ≠ []) :
    ∃ m, firstMin l = some m := by
  cases hm : firstMin l with
  | none => exact absurd (firstMin_eq_none hm) h
  | some m => exact ⟨m, rfl⟩

theorem firstMin_spec :
    ∀ {l : List Entry} {m : Entry}, firstMin l = some m →
      ∃ i, ∃ hi : i < l.length,
        l.get ⟨i, hi⟩ = m ∧
        (∀ j (hj : j < l.length), m.1 ≤ (l.get ⟨j, hj⟩).1) ∧
        (∀ j, j < i → ∀ (hj : j < l.length), m.1 < (l.get ⟨j, hj⟩).1) ∧
        pyRemove l m = l.eraseIdx i := by
  intro l
  induction l with
  | nil => intro m h; cases h
  | cons x xs ih =>
    intro m h
    simp only [firstMin] at h
    cases hm : firstMin xs with
    | none =>
      rw [hm] at h
      have h2 : some x = some m := h
      have hxm : x = m := by cases h2; rfl
      rw [← hxm]
      have hxs : xs = [] := firstMin_eq_none hm
      subst hxs
      refine ⟨0, by simp, rfl, ?_, ?_, ?_⟩
      · intro j hj
        have hj0 : j = 0 := by simpa using hj
        subst hj0
        exact le_refl _
      · intro j hj0 hj
        omega
      · show pyRemove [x] x = []
        simp [pyRemove, List.eraseIdx]
    | some m0 =>
      rw [hm] at h
      have h2 : some (if m0.1 < x.1 then m0 else x) = some m := h
      obtain ⟨i0, hi0, hget0, hmin0, hstrict0, hrem0⟩ := ih hm
      by_cases hcmp : m0.1 < x.1
      · rw [if_pos hcmp] at h2
        have hxm : m0 = m := by cases h2; rfl
        rw [← hxm]
        refine ⟨i0 + 1, by simpa using hi0, ?_, ?_, ?_, ?_⟩
        · exact hget0
        · intro j hj
          cases j with
          | zero => exact le_of_lt hcmp
          | succ k =>
            exact hmin0 k (by simpa using hj)
        · intro j hjlt hj
          cases j with
          | zero => exact hcmp
          | succ k =>
            exact hstrict0 k (Nat.lt_of_succ_lt_succ hjlt) (by simpa using hj)
        · show pyRemove (x :: xs) m0 = (x :: xs).eraseIdx (i0 + 1)
          have hx_ne : x ≠ m0 := by
            intro e
            rw [e] at hcmp
            exact lt_irrefl _ hcmp
          simp only [pyRemove, if_neg hx_ne, hrem0]
          rfl
      · rw [if_neg hcmp] at h2
        have hxm : x = m := by cases h2; rfl
        rw [← hxm]
        refine ⟨0, by simp, rfl, ?_, ?_, ?_⟩
        · intro j hj
          cases j with
          | zero => exact le_refl _
          | succ k =>
            have h1 : x.1 ≤ m0.1 := by omega
            exact le_trans h1 (hmin0 k (by simpa using hj))
        · intro j hj0 hj
          omega
        · show pyRemove (x :: xs) x = xs
          simp [pyRemove]

theorem pySort_cons_min :
    ∀ {l : List Entry} {m : Entry}, firstMin l = some m →
      pySort l = m :: pySort (pyRemove l m) := by
  intro l
  induction l with
  | nil => intro m h; cases h
  | cons x xs ih =>
    intro m h
    simp only [firstMin] at h
    cases hm : firstMin xs with
    | none =>
      rw [hm] at h
      have h2 : some x = some m := h
      have hxm : x = m := by cases h2; rfl
      rw [← hxm]
      have hxs : xs = [] := firstMin_eq_none hm
      subst hxs
      simp [pySort, pyRemove, insEntry]
    | some m0 =>
      rw [hm] at h
      have h2 : some (if m0.1 < x.1 then m0 else x) = some m := h
      by_cases hcmp : m0.1 < x.1
      · rw [if_pos hcmp] at h2
        have hxm : m0 = m := by cases h2; rfl
        rw [← hxm]
        have hx_ne : x ≠ m0 := by
          intro e
          rw [e] at hcmp
          exact lt_irrefl _ hcmp
        show insEntry x (pySort xs) = m0 :: pySort (pyRemove (x :: xs) m0)
        rw [ih hm]
        simp only [insEntry, if_pos hcmp, pyRemove, if_neg hx_ne]
        rfl
      · rw [if_neg hcmp] at h2
        have hxm : x = m := by cases h2; rfl
        rw [← hxm]
        show insEntry x (pySort xs) = x :: pySort (pyRemove (x :: xs) x)
        have hrm : pyRemove (x :: xs) x = xs := by simp [pyRemove]
        rw [hrm, ih hm]
        simp only [insEntry, if_neg hcmp]

theorem insEntry_perm (e : Entry) (l : List Entry) :
    (insEntry e l).Perm (e :: l) := by
  induction l with
  | nil => exact List.Perm.refl _
  | cons x xs ih =>
    simp only [insEntry]
    split
    · exact (ih.cons x).trans (List.Perm.swap e x xs)
    · exact List.Perm.refl _

theorem mem_insEntry {b e : Entry} {l : List Entry} (h : b ∈ insEntry e l) :
    b = e ∨ b ∈ l := by
  have := (insEntry_perm e l).mem_iff.1 h
  simpa using this

theorem insEntry_pairwise {e : Entry} {l : List Entry}
    (h : l.Pairwise (fun a b => a.1 ≤ b.1)) :
    (insEntry e l).Pairwise (fun a b => a.1 ≤ b.1) := by
  induction l with
  | nil => simp [insEntry]
  | cons x xs ih =>
    rw [List.pairwise_cons] at h
    simp only [insEntry]
    split
    · next hlt =>
      rw [List.pairwise_cons]
      constructor
      · intro b hb
        rcases mem_insEntry hb with h1 | h2
        · subst h1
          exact le_of_lt hlt
        · exact h.1 b h2
      · exact ih h.2
    · next hge =>
      rw [List.pairwise_cons]
      constructor
      · intro b hb
        rcases List.mem_cons.1 hb with h1 | h2
        · subst h1
          omega
        · exact le_trans (by omega) (h.1 b h2)
      · exact List.pairwise_cons.2 h

theorem pySort_perm (l : List Entry) : (pySort l).Perm l := by
  induction l with
  | nil => exact List.Perm.refl _
  | cons x xs ih =>
    show (insEntry x (pySort xs)).Perm _
    exact (insEntry_perm x (pySort xs)).trans (ih.cons x)

theorem pySort_pairwise (l : List Entry) :
    (pySort l).Pairwise (fun a b => a.1 ≤ b.1) := by
  induction l with
  | nil => simp [pySort]
  | cons x xs ih => exact insEntry_pairwise ih

theorem insEntry_filter (e : Entry) (l : List Entry) (p : Int) :
    (insEntry e l).filter (fun a => a.1 == p)
      = if e.1 = p then e :: l.filter (fun a => a.1 == p)
        else l.filter (fun a => a.1 == p) := by
  induction l with
  | nil =>
    by_cases he : e.1 = p <;>
      simp [insEntry, List.filter_cons, beq_iff_eq, he]
  | cons x xs ih =>
    simp only [insEntry]
    split
    · next hlt =>
      rw [List.filter_cons]
      by_cases he : e.1 = p
      · have hx : (x.1 == p) = false := by
          simp only [beq_eq_false_iff_ne, ne_eq]
          omega
        rw [if_neg (by simp [hx]), ih, if_pos he, if_pos he]
        rw [List.filter_cons, if_neg (by simp [hx])]
      · rw [ih, if_neg he, if_neg he, List.filter_cons]
    · next hge =>
      rw [List.filter_cons]
      by_cases he : e.1 = p
      · rw [if_pos (by simp [he]), if_pos he]
      · rw [if_neg (by simp [he]), if_neg he]

theorem pySort_filter (l : List Entry) (p : Int) :
    (pySort l).filter (fun a => a.1 == p) = l.filter (fun a => a.1 == p) := by
  induction l with
  | nil => rfl
  | cons x xs ih =>
    show (insEntry x (pySort xs)).filter _ = _
    rw [insEntry_filter, List.filter_cons]
    by_cases hx : x.1 = p
    · rw [if_pos hx, if_pos (by simp [hx]), ih]
    · rw [if_neg hx, if_neg (by simp [hx]), ih]

theorem pySort_eq_self {l : List Entry}
    (h : l.Pairwise (fun a b => a.1 ≤ b.1)) : pySort l = l := by
  induction l with
  | nil => rfl
  | cons x xs ih =>
    rw [List.pairwise_cons] at h
    show insEntry x (pySort xs) = x :: xs
    rw [ih h.2]
    cases xs with
    | nil => rfl
    | cons y ys =>
      simp only [insEntry]
      rw [if_neg]
      have := h.1 y (List.mem_cons_self _ _)
      omega

/-! ### Renumbering lemmas -/

theorem renumber_le {e : Entry} :
    ∀ {l : List Entry} {n : Int}, e ∈ renumber n l → n ≤ e.1 := by
  intro l
  induction l with
  | nil => intro n h; cases h
  | cons x xs ih =>
    intro n h
    rcases List.mem_cons.1 h with h1 | h2
    · subst h1; exact le_refl _
    · exact le_trans (by omega) (ih h2)

theorem renumber_pairwise : ∀ (l : List Entry) (n : Int),
    (renumber n l).Pairwise (fun a b => a.1 ≤ b.1) := by
  intro l
  induction l with
  | nil => intro n; simp [renumber]
  | cons x xs ih =>
    intro n
    show ((n, x.2) :: renumber (n + 1) xs).Pairwise _
    rw [List.pairwise_cons]
    exact ⟨fun b hb => le_trans (by omega) (renumber_le hb), ih (n + 1)⟩

theorem renumber_renumber : ∀ (l : List Entry) (n : Int),
    renumber n (renumber n l) = renumber n l := by
  intro l
  induction l with
  | nil => intro n; rfl
  | cons x xs ih =>
    intro n
    show (n, x.2) :: renumber (n + 1) (renumber (n + 1) xs)
        = (n, x.2) :: renumber (n + 1) xs
    rw [ih (n + 1)]

theorem renumber_good : ∀ {l : List Entry} {n : Int},
    (∀ e ∈ l, goodItem e.2 = true) →
    ∀ e ∈ renumber n l, goodItem e.2 = true := by
  intro l
  induction l with
  | nil => intro n _ e he; cases he
  | cons x xs ih =>
    intro n h e he
    rcases List.mem_cons.1 he with h1 | h2
    · subst h1
      exact h x (List.mem_cons_self _ _)
    · exact ih (fun y hy => h y (List.mem_cons_of_mem _ hy)) e h2

theorem pySort_good {l : List Entry} (h : ∀ e ∈ l, goodItem e.2 = true) :
    ∀ e ∈ pySort l, goodItem e.2 = true :=
  fun e he => h e ((pySort_perm l).mem_iff.1 he)

/-! ### Operation equation lemmas -/

theorem readItems_some {s : String} {items : List Entry}
    (hdec : decodeAll s = some items) : readItems (some s) = .ok items := by
  show (match decodeAll s with
    | none => (Except.error QErr.decodeFailure : Except QErr (List Entry))
    | some items => Except.ok items) = Except.ok items
  rw [hdec]

theorem pop_eq_some {s : String} {items : List Entry} {m : Entry}
    (hdec : decodeAll s = some items) (hm : firstMin items = some m) :
    pop (some s) = (.ok m.2, some (encodeAll (pyRemove items m))) := by
  unfold pop
  rw [readItems_some hdec]
  show (match pyMin items with
    | none => ((Except.error QErr.emptyQueue : Except QErr String), some s)
    | some m0 => (Except.ok m0.2, some (encodeAll (pyRemove items m0)))) = _
  rw [pyMin_eq_firstMin, hm]

theorem peek_eq_some {s : String} {items : List Entry} {m : Entry}
    (hdec : decodeAll s = some items) (hm : firstMin items = some m) :
    peek (some s) = .ok m.2 := by
  unfold peek
  rw [readItems_some hdec]
  show (match pyMin items with
    | none => (Except.error QErr.emptyQueue : Except QErr String)
    | some m0 => Except.ok m0.2) = _
  rw [pyMin_eq_firstMin, hm]

theorem change_priority_found {s : String} {items : List Entry}
    {target : String} {newp : Int}
    (hdec : decodeAll s = some items)
    (hfound : items.any (fun e => e.2 = target) = true) :
    change_priority target newp (some s)
      = (.ok (), some (encodeAll
          (items.map (fun e => if e.2 = target then (newp, e.2) else e)))) := by
  unfold change_priority
  rw [readItems_some hdec]
  show (if items.any (fun e => e.2 = target) = true then
      ((Except.ok () : Except QErr Unit), some (encodeAll
        (items.map (fun e => if e.2 = target then (newp, e.2) else e))))
    else (.error .itemNotFound, some s)) = _
  rw [if_pos hfound]

theorem change_priority_not_found {s : String} {items : List Entry}
    {target : String} {newp : Int}
    (hdec : decodeAll s = some items)
    (hnone : items.any (fun e => e.2 = target) = false) :
    change_priority target newp (some s) = (.error .itemNotFound, some s) := by
  unfold change_priority
  rw [readItems_some hdec]
  show (if items.any (fun e => e.2 = target) = true then
      ((Except.ok () : Except QErr Unit), some (encodeAll
        (items.map (fun e => if e.2 = target then (newp, e.2) else e))))
    else (.error .itemNotFound, some s)) = _
  rw [if_neg (by simp [hnone])]

theorem reorder_priorities_eq {s : String} {items : List Entry}
    (hdec : decodeAll s = some items) :
    reorder_priorities (some s)
      = (.ok (), some (encodeAll (renumber 1 (pySort items)))) := by
  unfold reorder_priorities
  rw [readItems_some hdec]

theorem insert_and_shift_up_eq {s : String} {items : List Entry}
    {item : String} {target : Int}
    (hdec : decodeAll s = some items) :
    insert_and_shift_up item target (some s)
      = (.ok (), some (encodeAll (pySort
          (items.map (fun e => (if e.1 ≥ target then e.1 + 1 else e.1, e.2))
            ++ [(target, item)])))) := by
  unfold insert_and_shift_up
  rw [readItems_some hdec]

theorem eraseIdx_good {items : List Entry} {i : Nat}
    (h : ∀ e ∈ items, goodItem e.2 = true) :
    ∀ e ∈ items.eraseIdx i, goodItem e.2 = true :=
  fun e he => h e ((List.eraseIdx_sublist items i).subset he)

/-- Everything `pop` does on a non-empty decodable store, in terms of the
index `i` of the first minimal-priority entry. -/
theorem pop_spec {s : String} {items : List Entry}
    (hdec : decodeAll s = some items) (hne : items ≠ []) :
    ∃ i, ∃ hi : i < items.length,
      (∀ j (hj : j < items.length),
        (items.get ⟨i, hi⟩).1 ≤ (items.get ⟨j, hj⟩).1) ∧
      (∀ j, j < i → ∀ hj : j < items.length,
        (items.get ⟨i, hi⟩).1 < (items.get ⟨j, hj⟩).1) ∧
      pop (some s)
        = (.ok (items.get ⟨i, hi⟩).2, some (encodeAll (items.eraseIdx i))) := by
  obtain ⟨m, hm⟩ := firstMin_of_ne_nil hne
  obtain ⟨i, hi, hget, hmin, hstrict, hrem⟩ := firstMin_spec hm
  refine ⟨i, hi, ?_, ?_, ?_⟩
  · intro j hj
    rw [hget]
    exact hmin j hj
  · intro j hlt hj
    rw [hget]
    exact hstrict j hlt hj
  · rw [pop_eq_some hdec hm, hget, hrem]

/-! ### Claim theorems -/

/-- C1: for every non-empty decodable store, `pop` returns the item text of
the entry with minimum priority, ties broken by original on-disk order (the
first such entry), removes exactly that one occurrence, and persists the
remainder; after the rewrite the selected entry is gone while every other
entry is still present (the new store decodes to the old list with exactly
the selected position erased). -/
theorem C1_pop_min_stable (s : String) (items : List Entry)
    (hdec : decodeAll s = some items) (hne : items ≠ []) :
    ∃ i, ∃ hi : i < items.length,
      (∀ j (hj : j < items.length),
        (items.get ⟨i, hi⟩).1 ≤ (items.get ⟨j, hj⟩).1) ∧
      (∀ j, j < i → ∀ hj : j < items.length,
        (items.get ⟨i, hi⟩).1 < (items.get ⟨j, hj⟩).1) ∧
      (pop (some s)).1 = Except.ok (items.get ⟨i, hi⟩).2 ∧
      (pop (some s)).2 = some (encodeAll (items.eraseIdx i)) ∧
      decodeAll (encodeAll (items.eraseIdx i)) = some (items.eraseIdx i) := by
  obtain ⟨i, hi, hmin, hstrict, heq⟩ := pop_spec hdec hne
  refine ⟨i, hi, hmin, hstrict, ?_, ?_, ?_⟩
  · rw [heq]
  · rw [heq]
  · exact decodeAll_encodeAll (eraseIdx_good (decodeAll_good hdec))

/-- Witness for C1 on the store `"2 A\n1 B\n1 C\n"`: the first minimal
entry is `(1, "B")` at index 1. -/
theorem C1_pop_min_stable_witness :
    ∃ i, ∃ hi : i < ([((2:Int), "A"), (1, "B"), (1, "C")] : List Entry).length,
      (∀ j (hj : j < ([((2:Int), "A"), (1, "B"), (1, "C")] : List Entry).length),
        (([((2:Int), "A"), (1, "B"), (1, "C")] : List Entry).get ⟨i, hi⟩).1
          ≤ (([((2:Int), "A"), (1, "B"), (1, "C")] : List Entry).get ⟨j, hj⟩).1) ∧
      (∀ j, j < i → ∀ hj : j < ([((2:Int), "A"), (1, "B"), (1, "C")] : List Entry).length,
        (([((2:Int), "A"), (1, "B"), (1, "C")] : List Entry).get ⟨i, hi⟩).1
          < (([((2:Int), "A"), (1, "B"), (1, "C")] : List Entry).get ⟨j, hj⟩).1) ∧
      (pop (some "2 A\n1 B\n1 C\n")).1
        = Except.ok (([((2:Int), "A"), (1, "B"), (1, "C")] : List Entry).get ⟨i, hi⟩).2 ∧
      (pop (some "2 A\n1 B\n1 C\n")).2
        = some (encodeAll (([((2:Int), "A"), (1, "B"), (1, "C")] : List Entry).eraseIdx i)) ∧
      decodeAll (encodeAll (([((2:Int), "A"), (1, "B"), (1, "C")] : List Entry).eraseIdx i))
        = some (([((2:Int), "A"), (1, "B"), (1, "C")] : List Entry).eraseIdx i) :=
  C1_pop_min_stable "2 A\n1 B\n1 C\n" [(2, "A"), (1, "B"), (1, "C")]
    (by decide) (by decide)

/-- C10: for every non-empty decodable store, the store `pop` rewrites
decodes to the old entry list with the single selected index erased: the
surviving entries keep their relative order, priorities, and item texts
(the erased-index list is a sublist of the original). -/
theorem C10_pop_frame (s : String) (items : List Entry)
    (hdec : decodeAll s = some items) (hne : items ≠ []) :
    ∃ i, i < items.length ∧ ∃ s2,
      (pop (some s)).2 = some s2 ∧
      decodeAll s2 = some (items.eraseIdx i) ∧
      (items.eraseIdx i).Sublist items ∧
      (items.eraseIdx i).length + 1 = items.length := by
  obtain ⟨i, hi, _, _, heq⟩ := pop_spec hdec hne
  refine ⟨i, hi, encodeAll (items.eraseIdx i), ?_, ?_, ?_, ?_⟩
  · rw [heq]
  · exact decodeAll_encodeAll (eraseIdx_good (decodeAll_good hdec))
  · exact List.eraseIdx_sublist items i
  · rw [List.length_eraseIdx, if_pos hi]
    omega

/-- Witness for C10 on the store `"5 A\n5 B\n"`: the tie at priority 5 is
broken in favour of the first entry on disk. -/
theorem C10_pop_frame_witness :
    ∃ i, i < ([((5:Int), "A"), (5, "B")] : List Entry).length ∧ ∃ s2,
      (pop (some "5 A\n5 B\n")).2 = some s2 ∧
      decodeAll s2 = some (([((5:Int), "A"), (5, "B")] : List Entry).eraseIdx i) ∧
      (([((5:Int), "A"), (5, "B")] : List Entry).eraseIdx i).Sublist
        ([((5:Int), "A"), (5, "B")] : List Entry) ∧
      (([((5:Int), "A"), (5, "B")] : List Entry).eraseIdx i).length + 1
        = ([((5:Int), "A"), (5, "B")] : List Entry).length :=
  C10_pop_frame "5 A\n5 B\n" [(5, "A"), (5, "B")] (by decide) (by decide)

/-- C3 counterexample: on a missing store, `pop` and `peek` fail with the
file-not-found error, which is a different error from the empty-queue
error — so the claim that they fail with `EmptyQueueError` is false. -/
theorem C3_counterexample :
    pop none = (Except.error QErr.fileNotFound, none) ∧
    peek none = Except.error QErr.fileNotFound ∧
    QErr.fileNotFound ≠ QErr.emptyQueue :=
  ⟨rfl, rfl, by decide⟩

/-- C3 amended: `pop` and `peek` on a missing store fail with
`FileNotFoundError` (the file is opened for reading and does not exist),
while on an existing-but-empty store they fail with the empty-queue
`IndexError`; the two failures are distinct. -/
theorem C3_missing_file_error :
    pop none = (Except.error QErr.fileNotFound, none) ∧
    peek none = Except.error QErr.fileNotFound ∧
    pop (some "") = (Except.error QErr.emptyQueue, some "") ∧
    peek (some "") = Except.error QErr.emptyQueue ∧
    QErr.fileNotFound ≠ QErr.emptyQueue :=
  ⟨rfl, rfl, by decide, by decide, by decide⟩

/-- C4 counterexample: pushing an item that contains a newline does not
fail and does not leave the store unchanged — the raw text is appended. -/
theorem C4_counterexample :
    push "a\nb" 1 (some "") = some "1 a\nb\n" ∧
    ("1 a\nb\n" : String) ≠ "" := ⟨by decide, by decide⟩

/-- C4 amended: `push` performs no validation at all and never fails; an
item containing a newline is appended raw, changing the store, and the
resulting store never decodes to the old entries followed by the pushed
entry (decoded items never contain a newline), so the store is corrupted
rather than rejected. -/
theorem C4_push_no_validation (item : String) (p : Int) (s : String)
    (items : List Entry) (_hdec : decodeAll s = some items)
    (hnl : '\n' ∈ item.data) :
    push item p (some s)
      = some (String.mk (s.data ++ (encodeLineChars (p, item) ++ ['\n']))) ∧
    push item p (some s) ≠ some s ∧
    (∀ out, decodeAll (String.mk (s.data ++ (encodeLineChars (p, item) ++ ['\n'])))
      = some out → out ≠ items ++ [(p, item)]) := by
  refine ⟨rfl, ?_, ?_⟩
  · intro hcontra
    have h1 : String.mk (s.data ++ (encodeLineChars (p, item) ++ ['\n'])) = s :=
      Option.some.inj hcontra
    have h2 : s.data ++ (encodeLineChars (p, item) ++ ['\n']) = s.data :=
      congrArg String.data h1
    have h3 : (s.data ++ (encodeLineChars (p, item) ++ ['\n'])).length
        = s.data.length := by rw [h2]
    rw [List.length_append, List.length_append] at h3
    simp at h3
  · intro out hout hcontra
    have hgood := decodeAll_good hout
    have hmem : (p, item) ∈ out := by
      rw [hcontra]
      simp
    exact good_no_newline (hgood _ hmem) hnl

/-- Witness for C4 at item `"a\nb"` pushed onto the empty store. -/
theorem C4_push_no_validation_witness :
    (push "a\nb" 1 (some "")
      = some (String.mk (("" : String).data
          ++ (encodeLineChars (1, "a\nb") ++ ['\n']))) ∧
    push "a\nb" 1 (some "") ≠ some "" ∧
    (∀ out, decodeAll (String.mk (("" : String).data
        ++ (encodeLineChars (1, "a\nb") ++ ['\n'])))
      = some out → out ≠ [] ++ [(1, "a\nb")])) :=
  C4_push_no_validation "a\nb" 1 "" [] (by decide) (by decide)

theorem get_map_entry (f : Entry → Entry) :
    ∀ (l : List Entry) (j : Nat) (hj : j < l.length)
      (hj2 : j < (l.map f).length),
      (l.map f).get ⟨j, hj2⟩ = f (l.get ⟨j, hj⟩) := by
  intro l
  induction l with
  | nil => intro j hj _; exact absurd hj (Nat.not_lt_zero j)
  | cons x xs ih =>
    intro j hj hj2
    cases j with
    | zero => rfl
    | succ k => exact ih k (Nat.lt_of_succ_lt_succ hj) (Nat.lt_of_succ_lt_succ hj2)

/-- C6: for every decodable store containing at least one entry whose item
equals `target`, `change_priority` sets the priority of every matching
entry (all duplicates) to the new priority, keeps every non-matching entry
unchanged at its original position, and persists the full set. -/
theorem C6_change_priority_all (s : String) (items : List Entry)
    (target : String) (newp : Int)
    (hdec : decodeAll s = some items)
    (hfound : items.any (fun e => e.2 = target) = true) :
    ∃ s2, change_priority target newp (some s) = (.ok (), some s2) ∧
      ∃ out, decodeAll s2 = some out ∧
        out = items.map (fun e => if e.2 = target then (newp, e.2) else e) ∧
        out.length = items.length ∧
        (∀ j (hj : j < items.length) (hj2 : j < out.length),
          ((items.get ⟨j, hj⟩).2 = target →
            out.get ⟨j, hj2⟩ = (newp, (items.get ⟨j, hj⟩).2)) ∧
          ((items.get ⟨j, hj⟩).2 ≠ target →
            out.get ⟨j, hj2⟩ = items.get ⟨j, hj⟩)) := by
  have hgood : ∀ e ∈ items.map (fun e => if e.2 = target then (newp, e.2) else e),
      goodItem e.2 = true := by
    intro e he
    rcases List.mem_map.1 he with ⟨a, ha, hae⟩
    have hga := decodeAll_good hdec a ha
    by_cases h : a.2 = target
    · rw [if_pos h] at hae
      rw [← hae]
      exact hga
    · rw [if_neg h] at hae
      rw [← hae]
      exact hga
  refine ⟨_, change_priority_found hdec hfound, _,
    decodeAll_encodeAll hgood, rfl, by simp, ?_⟩
  intro j hj hj2
  constructor
  · intro hmatch
    rw [get_map_entry _ items j hj hj2, if_pos hmatch]
  · intro hmiss
    rw [get_map_entry _ items j hj hj2, if_neg hmiss]

/-- Witness for C6 on the store `"1 A\n2 B\n3 B\n"` with target `"B"`:
both copies of `B` are updated, `A` is untouched. -/
theorem C6_change_priority_all_witness :
    (∃ s2, change_priority "B" 7 (some "1 A\n2 B\n3 B\n") = (.ok (), some s2) ∧
      ∃ out, decodeAll s2 = some out ∧
        out = ([((1:Int), "A"), (2, "B"), (3, "B")] : List Entry).map
          (fun e => if e.2 = "B" then ((7:Int), e.2) else e) ∧
        out.length = ([((1:Int), "A"), (2, "B"), (3, "B")] : List Entry).length ∧
        (∀ j (hj : j < ([((1:Int), "A"), (2, "B"), (3, "B")] : List Entry).length)
            (hj2 : j < out.length),
          ((([((1:Int), "A"), (2, "B"), (3, "B")] : List Entry).get ⟨j, hj⟩).2 = "B" →
            out.get ⟨j, hj2⟩
              = ((7:Int), (([((1:Int), "A"), (2, "B"), (3, "B")] : List Entry).get ⟨j, hj⟩).2)) ∧
          ((([((1:Int), "A"), (2, "B"), (3, "B")] : List Entry).get ⟨j, hj⟩).2 ≠ "B" →
            out.get ⟨j, hj2⟩
              = ([((1:Int), "A"), (2, "B"), (3, "B")] : List Entry).get ⟨j, hj⟩))) ∧
    (change_priority "B" 7 (some "1 A\n2 B\n3 B\n")).2 = some "1 A\n7 B\n7 B\n" :=
  ⟨C6_change_priority_all "1 A\n2 B\n3 B\n" [(1, "A"), (2, "B"), (3, "B")] "B" 7
    (by decide) (by decide), by decide⟩

/-- C7: for every decodable store containing no entry whose item equals
`target`, `change_priority` fails with the item-not-found error and
returns the store byte-for-byte unchanged (the error is raised before any
write). -/
theorem C7_change_priority_missing (s : String) (items : List Entry)
    (target : String) (newp : Int)
    (hdec : decodeAll s = some items)
    (hnone : ∀ e ∈ items, e.2 ≠ target) :
    change_priority target newp (some s) = (.error .itemNotFound, some s) := by
  apply change_priority_not_found hdec
  rw [List.any_eq_false]
  intro e he
  simpa using hnone e he

/-- Witness for C7 on the store `"1 A\n2 B\n"` with the absent target
`"Z"`. -/
theorem C7_change_priority_missing_witness :
    change_priority "Z" 7 (some "1 A\n2 B\n")
      = (.error .itemNotFound, some "1 A\n2 B\n") :=
  C7_change_priority_missing "1 A\n2 B\n" [(1, "A"), (2, "B")] "Z" 7
    (by decide) (by decide)

/-- C8: `reorder_priorities` is idempotent on every decodable store: the
store written by one application is mapped to itself by a second
application. -/
theorem C8_reorder_idempotent (s : String) (items : List Entry)
    (hdec : decodeAll s = some items) :
    ∃ s2, reorder_priorities (some s) = (.ok (), some s2) ∧
      reorder_priorities (some s2) = (.ok (), some s2) := by
  refine ⟨encodeAll (renumber 1 (pySort items)), reorder_priorities_eq hdec, ?_⟩
  have hgood : ∀ e ∈ renumber 1 (pySort items), goodItem e.2 = true :=
    renumber_good (pySort_good (decodeAll_good hdec))
  have hdec2 : decodeAll (encodeAll (renumber 1 (pySort items)))
      = some (renumber 1 (pySort items)) := decodeAll_encodeAll hgood
  rw [reorder_priorities_eq hdec2]
  rw [pySort_eq_self (renumber_pairwise (pySort items) 1)]
  rw [renumber_renumber]

/-- Witness for C8 on the store `"5 C\n2 A\n2 B\n"`. -/
theorem C8_reorder_idempotent_witness :
    ∃ s2, reorder_priorities (some "5 C\n2 A\n2 B\n") = (.ok (), some s2) ∧
      reorder_priorities (some s2) = (.ok (), some s2) :=
  C8_reorder_idempotent "5 C\n2 A\n2 B\n" [(5, "C"), (2, "A"), (2, "B")]
    (by decide)

/-- C9 counterexample: the entry `(1, "A ")` has no newline in its item,
yet decoding its encoded line loses the trailing space (`strip` removes
it), so the round trip is not the identity on items with trailing
whitespace. -/
theorem C9_counterexample :
    decodeAll (encodeAll [((1:Int), "A ")]) = some [((1:Int), "A")] ∧
    some [((1:Int), "A")] ≠ some [((1:Int), "A ")] ∧
    '\n' ∉ ("A " : String).data :=
  ⟨by decide, by decide, by decide⟩

/-- C9 amended: for every entry whose item is non-empty, contains no
newline, and does not end in whitespace, decoding the encoded line yields
back exactly the same priority and item text (leading and internal
whitespace preserved); a trailing-whitespace item is instead truncated by
the decoder's `strip`. -/
theorem C9_roundtrip_good (p : Int) (i : String) (h : goodItem i = true) :
    decodeAll (encodeAll [(p, i)]) = some [(p, i)] := by
  apply decodeAll_encodeAll
  intro e he
  rw [List.mem_singleton.1 he]
  exact h

/-- Witness for C9 at the entry `(-3, " a b")`, whose item has leading and
internal whitespace. -/
theorem C9_roundtrip_good_witness :
    decodeAll (encodeAll [((-3 : Int), " a b")]) = some [((-3 : Int), " a b")] :=
  C9_roundtrip_good (-3) " a b" (by decide)

/-- C5: for every decodable store and every well-formed item,
`insert_and_shift_up` increments by 1 the priority of every entry with
priority `≥ target`, appends the new entry `(target, item)`, stably sorts
by ascending priority, and persists the result: the new store decodes to
the stable sort of the shifted list plus the new entry — a permutation of
it, sorted, with every priority class kept in its pre-sort order. -/
theorem C5_insert_and_shift_up (s : String) (items : List Entry)
    (item : String) (target : Int)
    (hdec : decodeAll s = some items) (hitem : goodItem item = true) :
    ∃ s2, insert_and_shift_up item target (some s) = (.ok (), some s2) ∧
      ∃ out, decodeAll s2 = some out ∧
        out = pySort (items.map (fun e => (if e.1 ≥ target then e.1 + 1 else e.1, e.2))
          ++ [(target, item)]) ∧
        out.Perm (items.map (fun e => (if e.1 ≥ target then e.1 + 1 else e.1, e.2))
          ++ [(target, item)]) ∧
        out.Pairwise (fun a b => a.1 ≤ b.1) ∧
        (∀ q, out.filter (fun e => e.1 == q)
          = (items.map (fun e => (if e.1 ≥ target then e.1 + 1 else e.1, e.2))
            ++ [(target, item)]).filter (fun e => e.1 == q)) := by
  have hgood : ∀ e ∈ items.map (fun e => (if e.1 ≥ target then e.1 + 1 else e.1, e.2))
      ++ [(target, item)], goodItem e.2 = true := by
    intro e he
    rcases List.mem_append.1 he with h1 | h2
    · rcases List.mem_map.1 h1 with ⟨a, ha, hae⟩
      rw [← hae]
      exact decodeAll_good hdec a ha
    · rw [List.mem_singleton.1 h2]
      exact hitem
  exact ⟨_, insert_and_shift_up_eq hdec, _,
    decodeAll_encodeAll (pySort_good hgood), rfl, pySort_perm _,
    pySort_pairwise _, fun q => pySort_filter _ q⟩

/-- Witness for C5: the spec scenario — `insert_and_shift_up("D", 2)`
against `{(1,A),(2,B),(3,C)}` writes the store `"1 A\n2 D\n3 B\n4 C\n"`. -/
theorem C5_insert_and_shift_up_witness :
    (∃ s2, insert_and_shift_up "D" 2 (some "1 A\n2 B\n3 C\n") = (.ok (), some s2) ∧
      ∃ out, decodeAll s2 = some out ∧
        out = pySort (([((1:Int), "A"), (2, "B"), (3, "C")] : List Entry).map
            (fun e => (if e.1 ≥ 2 then e.1 + 1 else e.1, e.2)) ++ [((2:Int), "D")]) ∧
        out.Perm (([((1:Int), "A"), (2, "B"), (3, "C")] : List Entry).map
            (fun e => (if e.1 ≥ 2 then e.1 + 1 else e.1, e.2)) ++ [((2:Int), "D")]) ∧
        out.Pairwise (fun a b => a.1 ≤ b.1) ∧
        (∀ q, out.filter (fun e => e.1 == q)
          = (([((1:Int), "A"), (2, "B"), (3, "C")] : List Entry).map
              (fun e => (if e.1 ≥ 2 then e.1 + 1 else e.1, e.2))
            ++ [((2:Int), "D")]).filter (fun e => e.1 == q))) ∧
    (insert_and_shift_up "D" 2 (some "1 A\n2 B\n3 C\n")).2
      = some "1 A\n2 D\n3 B\n4 C\n" :=
  ⟨C5_insert_and_shift_up "1 A\n2 B\n3 C\n" [(1, "A"), (2, "B"), (3, "C")] "D" 2
    (by decide) (by decide), by decide⟩

/-! ### Push-then-pop sequences (C2) -/

theorem pushAll_encode : ∀ (l : List Entry) (cs : List Char),
    pushAll l (some (String.mk cs)) = some (String.mk (cs ++ encodeAllChars l)) := by
  intro l
  induction l with
  | nil =>
    intro cs
    show some (String.mk cs) = some (String.mk (cs ++ encodeAllChars []))
    rw [show encodeAllChars [] = [] from rfl, List.append_nil]
  | cons e es ih =>
    intro cs
    show pushAll es (push e.2 e.1 (some (String.mk cs)))
      = some (String.mk (cs ++ encodeAllChars (e :: es)))
    have h1 : push e.2 e.1 (some (String.mk cs))
        = some (String.mk (cs ++ (encodeLineChars (e.1, e.2) ++ ['\n']))) := rfl
    rw [h1, ih, List.append_assoc]
    rfl

theorem popsStore_eq_sort : ∀ (n : Nat) (items : List Entry),
    items.length = n → (∀ e ∈ items, goodItem e.2 = true) →
    popsStore n (some (encodeAll items)) = (pySort items).map (fun e => e.2) := by
  intro n
  induction n with
  | zero =>
    intro items hlen hgood
    have h0 : items = [] := List.length_eq_zero.1 hlen
    subst h0
    rfl
  | succ k ih =>
    intro items hlen hgood
    have hne : items ≠ [] := by
      intro h
      rw [h] at hlen
      cases hlen
    obtain ⟨m, hm⟩ := firstMin_of_ne_nil hne
    have hdec : decodeAll (encodeAll items) = some items := decodeAll_encodeAll hgood
    have hpop := pop_eq_some hdec hm
    show (match pop (some (encodeAll items)) with
      | (.ok item, s2) => item :: popsStore k s2
      | (.error _, _) => []) = _
    rw [hpop]
    show m.2 :: popsStore k (some (encodeAll (pyRemove items m))) = _
    obtain ⟨i, hi, _, _, _, hrem⟩ := firstMin_spec hm
    have hlen2 : (pyRemove items m).length = k := by
      rw [hrem, List.length_eraseIdx, if_pos hi]
      omega
    have hgood2 : ∀ e ∈ pyRemove items m, goodItem e.2 = true := by
      rw [hrem]
      exact eraseIdx_good hgood
    rw [ih _ hlen2 hgood2, pySort_cons_min hm]
    rfl

/-- C2: starting from an empty store, a sequence of `push` calls followed
by repeated `pop` calls until empty returns the item texts in the order of
the stable sort of the pushed entries by priority: non-decreasing priority
order (the sort is sorted), all pushed entries accounted for (it is a
permutation), and FIFO among equal priorities (every priority class keeps
its push order). -/
theorem C2_push_pop_fifo (l : List Entry)
    (hgood : ∀ e ∈ l, goodItem e.2 = true) :
    popsStore l.length (pushAll l (some "")) = (pySort l).map (fun e => e.2) ∧
    (pySort l).Perm l ∧
    (pySort l).Pairwise (fun a b => a.1 ≤ b.1) ∧
    (∀ q, (pySort l).filter (fun e => e.1 == q) = l.filter (fun e => e.1 == q)) := by
  refine ⟨?_, pySort_perm l, pySort_pairwise l, fun q => pySort_filter l q⟩
  have h0 : ("" : String) = String.mk [] := rfl
  rw [h0, pushAll_encode]
  exact popsStore_eq_sort l.length l rfl hgood

/-- Witness for C2 on the pushes `(3,"A")`, `(1,"B")`, `(1,"C")`: pops
return `B`, `C`, `A`. -/
theorem C2_push_pop_fifo_witness :
    (popsStore ([((3:Int), "A"), (1, "B"), (1, "C")] : List Entry).length
        (pushAll [((3:Int), "A"), (1, "B"), (1, "C")] (some ""))
      = (pySort [((3:Int), "A"), (1, "B"), (1, "C")]).map (fun e => e.2) ∧
    (pySort [((3:Int), "A"), (1, "B"), (1, "C")]).Perm
      [((3:Int), "A"), (1, "B"), (1, "C")] ∧
    (pySort [((3:Int), "A"), (1, "B"), (1, "C")]).Pairwise
      (fun a b => a.1 ≤ b.1) ∧
    (∀ q, (pySort [((3:Int), "A"), (1, "B"), (1, "C")]).filter
        (fun e => e.1 == q)
      = ([((3:Int), "A"), (1, "B"), (1, "C")] : List Entry).filter
        (fun e => e.1 == q))) ∧
    popsStore 3 (pushAll [((3:Int), "A"), (1, "B"), (1, "C")] (some ""))
      = ["B", "C", "A"] :=
  ⟨C2_push_pop_fifo [(3, "A"), (1, "B"), (1, "C")] (by decide), by decide⟩

end HeapqBasic
